import Mathlib

/-!
Lax DER signature parsing — verification development.

The repository exposes (in `src/ecc-helper/include/ecdsa.h`) a lenient
("lax") DER parser for ECDSA signatures,

  `int ecdsa_signature_parse_der_lax(secp256k1_ecdsa_signature* sig,
                                     const unsigned char *input, size_t inputlen);`

together with a process-wide context provider `get_static_context`.  The
header only declares the functions; the parser itself is therefore modelled
here from the design document's step-by-step description (outer SEQUENCE tag
check, short/long-form length decoding, per-INTEGER decoding with padding
stripping and a width bound, and normalization into a 64-byte `r ‖ s`
output).

The input buffer is modelled exactly as the C signature presents it: a byte
store `f : Nat → Nat` (the pointer) together with an explicit declared
length `inputlen`, so that the claim that the parser never reads past the
declared length is a real statement (`parse_frame`-style congruence
theorems).  A convenience wrapper takes a `List Nat` of bytes.  Sizes are
unbounded `Nat`, so the document's "long-form byte count overflows a
representable size" rejection is subsumed by the buffer-bound checks: any
decoded length is compared against the remaining buffer and oversized
declarations fail as truncation.
-/

namespace LaxDer

/-- Modelled from the spec: big-endian accumulation of `n` length bytes
starting at position `pos` of the byte store `f` (step 2/3, long-form
length decoding: "low 7 bits = number of following big-endian length
bytes"). -/
def readBE (f : Nat → Nat) : Nat → Nat → Nat → Nat
  | _, 0, acc => acc
  | pos, n + 1, acc => readBE f (pos + 1) n (acc * 256 + f pos)

/-- Modelled from the spec: the `n` raw bytes of an INTEGER field starting
at position `pos` of the byte store. -/
def fieldBytes (f : Nat → Nat) : Nat → Nat → List Nat
  | _, 0 => []
  | pos, n + 1 => f pos :: fieldBytes f (pos + 1) n

/-- Leading `0x00` bytes removed: the significant bytes used for
normalization ("the significant bytes (after stripping pure padding,
dropping at most one leading disambiguation zero …)"). -/
def stripZeros (l : List Nat) : List Nat := l.dropWhile (fun b => b = 0)

/-- Modelled from the spec: leading zeros that are *pure padding* removed —
a single leading zero is kept when the next byte has its high bit set,
because that zero is a necessary sign-disambiguation byte, not padding. -/
def stripPurePadding (l : List Nat) : List Nat :=
  let s := l.dropWhile (fun b => b = 0)
  if s.length < l.length ∧ 0x80 ≤ s.headD 0 then 0 :: s else s

/-- Right-align significant bytes into a 32-byte big-endian field, left
padding with zero bytes (normalization, step 4). -/
def pad32 (l : List Nat) : List Nat := List.replicate (32 - l.length) 0 ++ l

/-- Modelled from the spec: decode one DER length at position `pos` of a
buffer of declared length `len` — short form (single byte `< 0x80`) or long
form (high bit set, low 7 bits giving the count of following big-endian
length bytes).  Length bytes that would extend past the declared buffer end
fail.  Returns the decoded length and the position just past it. -/
def parseLengthF (f : Nat → Nat) (len pos : Nat) : Option (Nat × Nat) :=
  if pos < len then
    let lb := f pos
    if lb < 0x80 then some (lb, pos + 1)
    else
      let n := lb - 0x80
      if len - (pos + 1) < n then none
      else some (readBE f (pos + 1) n 0, pos + 1 + n)
  else none

/-- Modelled from the spec (step 3, applied to r then s): expect tag
`0x02`; decode the field length with the short/long-form rules; a
zero-length field fails; the field's raw span must lie within the declared
buffer (truncation check); after stripping leading zeros the significant
bytes must fit the 32-byte field element (values wider than the tolerance
window fail as oversized).  Returns the normalized 32-byte big-endian field
and the position just past the field. -/
def parseIntFieldF (f : Nat → Nat) (len pos : Nat) : Option (List Nat × Nat) :=
  if pos < len then
    if f pos = 2 then
      match parseLengthF f len (pos + 1) with
      | none => none
      | some (flen, p2) =>
        if flen = 0 then none
        else if len - p2 < flen then none
        else
          let sig := stripZeros (fieldBytes f p2 flen)
          if 32 < sig.length then none
          else some (pad32 sig, p2 + flen)
    else none
  else none

/-- Modelled from the spec: the full lax DER parse of
`ecdsa_signature_parse_der_lax` (whose body is not in the repository
sources; only its declaration is), instrumented to also return the position
just past the consumed bytes.  Steps: outer `0x30` SEQUENCE tag; outer
length decode, rejected when the declared length extends past the buffer
but tolerated when longer than what the two INTEGERs consume; the r and s
INTEGER fields in order; output is the 64-byte concatenation `r32 ++ s32`.
Declared-but-unconsumed trailing bytes are ignored. -/
def parse_der_lax_full (f : Nat → Nat) (inputlen : Nat) :
    Option (List Nat × Nat) :=
  if 0 < inputlen then
    if f 0 = 0x30 then
      match parseLengthF f inputlen 1 with
      | none => none
      | some (outerLen, p1) =>
        if inputlen - p1 < outerLen then none
        else
          match parseIntFieldF f inputlen p1 with
          | none => none
          | some (r32, p2) =>
            match parseIntFieldF f inputlen p2 with
            | none => none
            | some (s32, p3) => some (r32 ++ s32, p3)
    else none
  else none

/-- The parse result as the caller sees it: the normalized 64-byte
signature, or `none` on failure. -/
def parse_der_lax (f : Nat → Nat) (inputlen : Nat) : Option (List Nat) :=
  (parse_der_lax_full f inputlen).map Prod.fst

/-- The parser applied to a concrete byte list: the list is the buffer, its
length the declared input length. -/
def ecdsa_signature_parse_der_lax (input : List Nat) : Option (List Nat) :=
  parse_der_lax (fun i => input.getD i 0) input.length

/-- Body of a minimal canonical DER INTEGER for the significant bytes
`sig` (no leading zeros): the value zero is one zero byte, a value whose
high bit is set gains the single necessary sign-disambiguation zero, and
any other value is its significant bytes unchanged.  Stated from the
spec's description of minimal canonical DER, for the round-trip
property. -/
def derBody (sig : List Nat) : List Nat :=
  if sig = [] then [0] else if 0x80 ≤ sig.headD 0 then 0 :: sig else sig

/-- Minimal canonical DER INTEGER encoding of a 32-byte normalized field:
tag `0x02`, short-form length, then the body.  Stated from the spec, for
the round-trip property. -/
def encodeIntDER (v : List Nat) : List Nat :=
  2 :: (derBody (stripZeros v)).length :: derBody (stripZeros v)

/-- Minimal canonical DER re-encoding of a 64-byte normalized signature:
SEQUENCE tag `0x30`, short-form length, then the two INTEGER encodings of
the r and s halves.  Stated from the spec, for the round-trip property. -/
def encodeSigDER (out : List Nat) : List Nat :=
  0x30 :: ((encodeIntDER (out.take 32)).length + (encodeIntDER (out.drop 32)).length)
    :: (encodeIntDER (out.take 32) ++ encodeIntDER (out.drop 32))

/-! ## Basic lemmas about the byte-store view of a list -/

theorem getD_of_drop {α : Type} [Inhabited α] :
    ∀ (L : List α) (p : Nat) (x : α) (t : List α),
      L.drop p = x :: t → L.getD p default = x := by
  intro L p
  induction p generalizing L with
  | zero =>
    intro x t h
    simp only [List.drop_zero] at h
    subst h
    rfl
  | succ p ih =>
    intro x t h
    cases L with
    | nil => simp at h
    | cons y L' =>
      simp only [List.drop_succ_cons] at h
      simpa using ih L' x t h

theorem drop_succ_of_drop {α : Type} :
    ∀ (L : List α) (p : Nat) (x : α) (t : List α),
      L.drop p = x :: t → L.drop (p + 1) = t := by
  intro L p
  induction p generalizing L with
  | zero =>
    intro x t h
    simp only [List.drop_zero] at h
    subst h
    simp
  | succ p ih =>
    intro x t h
    cases L with
    | nil => simp at h
    | cons y L' =>
      simp only [List.drop_succ_cons] at h
      simpa using ih L' x t h

theorem fieldBytes_of_drop :
    ∀ (body : List Nat) (L rest : List Nat) (p : Nat),
      L.drop p = body ++ rest →
      fieldBytes (fun i => L.getD i 0) p body.length = body := by
  intro body
  induction body with
  | nil => intro L rest p _; rfl
  | cons b t ih =>
    intro L rest p h
    simp only [List.cons_append] at h
    simp only [List.length_cons, fieldBytes]
    refine congrArg₂ _ (getD_of_drop L p b (t ++ rest) h) ?_
    exact ih L rest (p + 1) (drop_succ_of_drop L p b (t ++ rest) h)

theorem pos_lt_of_drop {α : Type} (L : List α) (p : Nat) (x : α) (t : List α)
    (h : L.drop p = x :: t) : p < L.length := by
  have hl : (L.drop p).length = L.length - p := List.length_drop p L
  rw [h] at hl
  simp only [List.length_cons] at hl
  omega

/-! ## Lemmas about stripping and padding -/

theorem stripZeros_cons_zero (l : List Nat) : stripZeros (0 :: l) = stripZeros l := by
  simp [stripZeros, List.dropWhile]

theorem stripZeros_replicate (k : Nat) (l : List Nat) :
    stripZeros (List.replicate k 0 ++ l) = stripZeros l := by
  induction k with
  | zero => simp
  | succ k ih =>
    rw [List.replicate_succ, List.cons_append, stripZeros_cons_zero]
    exact ih

theorem stripZeros_head_ne (l : List Nat) (x : Nat) (t : List Nat)
    (h : stripZeros l = x :: t) : x ≠ 0 := by
  have hh := List.head?_dropWhile_not (fun b => b = 0) l
  unfold stripZeros at h
  rw [h] at hh
  simpa using hh

theorem stripZeros_idem (l : List Nat) : stripZeros (stripZeros l) = stripZeros l := by
  rcases he : stripZeros l with _ | ⟨x, t⟩
  · rfl
  · have hx := stripZeros_head_ne l x t he
    simp [stripZeros, List.dropWhile, hx]

theorem stripZeros_length_le (l : List Nat) : (stripZeros l).length ≤ l.length := by
  unfold stripZeros
  induction l with
  | nil => simp
  | cons x t ih =>
    by_cases hx : x = 0
    · subst hx
      simp only [List.dropWhile]
      simpa using Nat.le_succ_of_le ih
    · simp [List.dropWhile, hx]

theorem pad32_length (l : List Nat) (h : l.length ≤ 32) : (pad32 l).length = 32 := by
  simp only [pad32, List.length_append, List.length_replicate]
  omega

theorem takeWhile_zeros_eq_replicate (l : List Nat) :
    l.takeWhile (fun b => b = 0) =
      List.replicate (l.takeWhile (fun b => b = 0)).length 0 := by
  refine List.eq_replicate_iff.2 ⟨rfl, ?_⟩
  intro b hb
  have := List.mem_takeWhile_imp hb
  simpa using this

theorem pad32_stripZeros (l : List Nat) (h : l.length = 32) :
    pad32 (stripZeros l) = l := by
  conv_rhs => rw [← List.takeWhile_append_dropWhile (p := fun b => b = 0) (l := l)]
  rw [takeWhile_zeros_eq_replicate]
  unfold pad32 stripZeros
  have hlen : (l.takeWhile (fun b => b = 0)).length +
      (l.dropWhile (fun b => b = 0)).length = 32 := by
    rw [← List.length_append, List.takeWhile_append_dropWhile, h]
  have : 32 - (l.dropWhile (fun b => b = 0)).length =
      (l.takeWhile (fun b => b = 0)).length := by omega
  rw [this]

theorem stripPurePadding_length_le (l : List Nat) :
    (stripPurePadding l).length ≤ (stripZeros l).length + 1 := by
  simp only [stripPurePadding, stripZeros]
  split
  · simp
  · simp

/-! ## Inversion lemmas: what a successful parse tells us -/

theorem parseLengthF_le (f : Nat → Nat) (len pos L p' : Nat)
    (h : parseLengthF f len pos = some (L, p')) :
    pos < len ∧ pos + 1 ≤ p' ∧ p' ≤ len := by
  simp only [parseLengthF] at h
  split at h
  case isTrue hpos =>
    split at h
    case isTrue hlb =>
      simp only [Option.some.injEq, Prod.mk.injEq] at h
      omega
    case isFalse hlb =>
      split at h
      case isTrue => simp at h
      case isFalse hn =>
        simp only [Option.some.injEq, Prod.mk.injEq] at h
        omega
  case isFalse => simp at h

theorem parseIntFieldF_inv (f : Nat → Nat) (len pos : Nat) (f32 : List Nat)
    (p' : Nat) (h : parseIntFieldF f len pos = some (f32, p')) :
    ∃ flen p2, pos < len ∧ f pos = 2 ∧
      parseLengthF f len (pos + 1) = some (flen, p2) ∧
      flen ≠ 0 ∧ p2 + flen ≤ len ∧
      (stripZeros (fieldBytes f p2 flen)).length ≤ 32 ∧
      f32 = pad32 (stripZeros (fieldBytes f p2 flen)) ∧
      p' = p2 + flen := by
  simp only [parseIntFieldF] at h
  split at h
  case isTrue hpos =>
    split at h
    case isTrue htag =>
      rcases hl : parseLengthF f len (pos + 1) with _ | ⟨flen, p2⟩
      · rw [hl] at h; simp at h
      · rw [hl] at h
        simp only at h
        split at h
        case isTrue => simp at h
        case isFalse hflen =>
          split at h
          case isTrue => simp at h
          case isFalse hspan =>
            split at h
            case isTrue => simp at h
            case isFalse hsig =>
              simp only [Option.some.injEq, Prod.mk.injEq] at h
              have hle := parseLengthF_le f len (pos + 1) flen p2 hl
              exact ⟨flen, p2, hpos, htag, rfl, hflen, by omega,
                by omega, h.1.symm, h.2.symm⟩
    case isFalse => simp at h
  case isFalse => simp at h

theorem parse_der_lax_full_inv (f : Nat → Nat) (len : Nat) (out : List Nat)
    (endPos : Nat) (h : parse_der_lax_full f len = some (out, endPos)) :
    ∃ outerLen p1 r32 p2 s32,
      0 < len ∧ f 0 = 0x30 ∧
      parseLengthF f len 1 = some (outerLen, p1) ∧
      p1 + outerLen ≤ len ∧
      parseIntFieldF f len p1 = some (r32, p2) ∧
      parseIntFieldF f len p2 = some (s32, endPos) ∧
      out = r32 ++ s32 := by
  simp only [parse_der_lax_full] at h
  split at h
  case isTrue hlen =>
    split at h
    case isTrue htag =>
      rcases hl : parseLengthF f len 1 with _ | ⟨outerLen, p1⟩
      · rw [hl] at h; simp at h
      · rw [hl] at h
        simp only at h
        split at h
        case isTrue => simp at h
        case isFalse houter =>
          rcases hr : parseIntFieldF f len p1 with _ | ⟨r32, p2⟩
          · rw [hr] at h; simp at h
          · rw [hr] at h
            simp only at h
            rcases hs : parseIntFieldF f len p2 with _ | ⟨s32, p3⟩
            · rw [hs] at h; simp at h
            · rw [hs] at h
              simp only [Option.some.injEq, Prod.mk.injEq] at h
              have hle := parseLengthF_le f len 1 outerLen p1 hl
              refine ⟨outerLen, p1, r32, p2, s32, hlen, htag, rfl, by omega,
                hr, ?_, h.1.symm⟩
              rw [← h.2]
              exact hs
    case isFalse => simp at h
  case isFalse => simp at h

/-! ## Evaluating the parser on an encoded shape -/

theorem parseLengthF_short (f : Nat → Nat) (len pos : Nat) (h : pos < len)
    (hlb : f pos < 0x80) : parseLengthF f len pos = some (f pos, pos + 1) := by
  simp [parseLengthF, h, hlb]

theorem parseIntFieldF_encoded (L : List Nat) (p : Nat) (body rest : List Nat)
    (hL : L.drop p = 2 :: body.length :: (body ++ rest))
    (hlen : body.length < 0x80) (hne : body ≠ [])
    (hsig : (stripZeros body).length ≤ 32) :
    parseIntFieldF (fun i => L.getD i 0) L.length p
      = some (pad32 (stripZeros body), p + 2 + body.length) := by
  have h0 : L.getD p 0 = 2 := getD_of_drop L p _ _ hL
  have hd1 : L.drop (p + 1) = body.length :: (body ++ rest) :=
    drop_succ_of_drop L p _ _ hL
  have h1 : L.getD (p + 1) 0 = body.length := getD_of_drop L (p + 1) _ _ hd1
  have hd2 : L.drop (p + 2) = body ++ rest := drop_succ_of_drop L (p + 1) _ _ hd1
  have hplt : p < L.length := pos_lt_of_drop L p _ _ hL
  have hp1lt : p + 1 < L.length := pos_lt_of_drop L (p + 1) _ _ hd1
  have hrem : L.length - (p + 2) = body.length + rest.length := by
    have hld := List.length_drop (p + 2) L
    rw [hd2] at hld
    simp only [List.length_append] at hld
    omega
  have hfb : fieldBytes (fun i => L.getD i 0) (p + 2) body.length = body :=
    fieldBytes_of_drop body L rest (p + 2) hd2
  have hplen : parseLengthF (fun i => L.getD i 0) L.length (p + 1)
      = some (body.length, p + 2) := by
    have hs := parseLengthF_short (fun i => L.getD i 0) L.length (p + 1) hp1lt
      (by show L.getD (p + 1) 0 < 0x80; rw [h1]; exact hlen)
    simp only [] at hs
    rw [h1] at hs
    exact hs
  have hne' : body.length ≠ 0 := by
    simpa using hne
  have hspan : ¬ (L.length - (p + 2) < body.length) := by omega
  simp only [parseIntFieldF, hplen]
  rw [if_pos hplt, if_pos (show L.getD p 0 = 2 from h0)]
  simp only [hfb]
  rw [if_neg hne', if_neg hspan, if_neg (by omega : ¬ 32 < (stripZeros body).length)]

theorem parse_der_lax_full_encoded (eL : Nat) (bodyR bodyS tail : List Nat)
    (heL : eL < 0x80)
    (houter : eL ≤ 2 + bodyR.length + 2 + bodyS.length + tail.length)
    (hbrl : bodyR.length < 0x80) (hbsl : bodyS.length < 0x80)
    (hbr : bodyR ≠ []) (hbs : bodyS ≠ [])
    (hsr : (stripZeros bodyR).length ≤ 32) (hss : (stripZeros bodyS).length ≤ 32) :
    parse_der_lax_full
        (fun i => (0x30 :: eL :: 2 :: bodyR.length ::
          (bodyR ++ 2 :: bodyS.length :: (bodyS ++ tail))).getD i 0)
        (0x30 :: eL :: 2 :: bodyR.length ::
          (bodyR ++ 2 :: bodyS.length :: (bodyS ++ tail))).length
      = some (pad32 (stripZeros bodyR) ++ pad32 (stripZeros bodyS),
              4 + bodyR.length + 2 + bodyS.length) := by
  set L : List Nat := 0x30 :: eL :: 2 :: bodyR.length ::
    (bodyR ++ 2 :: bodyS.length :: (bodyS ++ tail)) with hLdef
  have hlenL : L.length = 4 + bodyR.length + 2 + bodyS.length + tail.length := by
    simp only [hLdef, List.length_cons, List.length_append]
    omega
  have h0 : L.getD 0 0 = 0x30 := rfl
  have h1lt : 1 < L.length := by omega
  have houtlen : parseLengthF (fun i => L.getD i 0) L.length 1 = some (eL, 2) :=
    parseLengthF_short (fun i => L.getD i 0) L.length 1 h1lt heL
  have hLr : L.drop 2 = 2 :: bodyR.length ::
      (bodyR ++ (2 :: bodyS.length :: (bodyS ++ tail))) := rfl
  have hrfield : parseIntFieldF (fun i => L.getD i 0) L.length 2
      = some (pad32 (stripZeros bodyR), 2 + 2 + bodyR.length) :=
    parseIntFieldF_encoded L 2 bodyR (2 :: bodyS.length :: (bodyS ++ tail))
      hLr hbrl hbr hsr
  have hLs : L.drop (4 + bodyR.length) = 2 :: bodyS.length :: (bodyS ++ tail) := by
    have h4 : L.drop 4 = bodyR ++ (2 :: bodyS.length :: (bodyS ++ tail)) := rfl
    have hdd : L.drop (4 + bodyR.length) = (L.drop 4).drop bodyR.length := by
      rw [List.drop_drop]
    rw [hdd, h4, List.drop_left]
  have hsfield : parseIntFieldF (fun i => L.getD i 0) L.length (4 + bodyR.length)
      = some (pad32 (stripZeros bodyS), 4 + bodyR.length + 2 + bodyS.length) :=
    parseIntFieldF_encoded L (4 + bodyR.length) bodyS tail hLs hbsl hbs hss
  have h24 : 2 + 2 + bodyR.length = 4 + bodyR.length := by omega
  simp only [parse_der_lax_full, houtlen]
  rw [if_pos (by omega : 0 < L.length),
    if_pos (show L.getD 0 0 = 0x30 from h0),
    if_neg (by omega : ¬ L.length - 2 < eL)]
  simp only [hrfield, h24, hsfield]

/-! ## Build lemmas: reassembling a parse from its components -/

theorem parseIntFieldF_build (f : Nat → Nat) (len pos flen p2 : Nat)
    (hpos : pos < len) (htag : f pos = 2)
    (hl : parseLengthF f len (pos + 1) = some (flen, p2))
    (hf0 : flen ≠ 0) (hspan : p2 + flen ≤ len)
    (hsig : (stripZeros (fieldBytes f p2 flen)).length ≤ 32) :
    parseIntFieldF f len pos
      = some (pad32 (stripZeros (fieldBytes f p2 flen)), p2 + flen) := by
  have hle := parseLengthF_le f len (pos + 1) flen p2 hl
  simp only [parseIntFieldF, hl]
  rw [if_pos hpos, if_pos htag, if_neg hf0,
    if_neg (by omega : ¬ len - p2 < flen), if_neg (by omega)]

theorem parse_der_lax_full_build (f : Nat → Nat)
    (len outerLen p1 p2 p3 : Nat) (r32 s32 : List Nat)
    (hlen : 0 < len) (htag : f 0 = 0x30)
    (hl : parseLengthF f len 1 = some (outerLen, p1))
    (houter : p1 + outerLen ≤ len)
    (hr : parseIntFieldF f len p1 = some (r32, p2))
    (hs : parseIntFieldF f len p2 = some (s32, p3)) :
    parse_der_lax_full f len = some (r32 ++ s32, p3) := by
  have hle := parseLengthF_le f len 1 outerLen p1 hl
  simp only [parse_der_lax_full, hl, hr, hs]
  rw [if_pos hlen, if_pos htag, if_neg (by omega : ¬ len - p1 < outerLen)]

/-! ## Congruence: the parser reads only bytes below the declared length -/

theorem readBE_congr (f g : Nat → Nat) :
    ∀ (n pos acc : Nat), (∀ i, pos ≤ i → i < pos + n → g i = f i) →
      readBE g pos n acc = readBE f pos n acc := by
  intro n
  induction n with
  | zero => intro pos acc _; rfl
  | succ n ih =>
    intro pos acc h
    simp only [readBE]
    rw [h pos (Nat.le_refl pos) (by omega)]
    exact ih (pos + 1) _ (fun i h1 h2 => h i (by omega) (by omega))

theorem fieldBytes_congr (f g : Nat → Nat) :
    ∀ (n pos : Nat), (∀ i, pos ≤ i → i < pos + n → g i = f i) →
      fieldBytes g pos n = fieldBytes f pos n := by
  intro n
  induction n with
  | zero => intro pos _; rfl
  | succ n ih =>
    intro pos h
    simp only [fieldBytes]
    rw [h pos (Nat.le_refl pos) (by omega)]
    rw [ih (pos + 1) (fun i h1 h2 => h i (by omega) (by omega))]

theorem parseLengthF_congr (f g : Nat → Nat) (len pos : Nat)
    (h : ∀ i, i < len → g i = f i) :
    parseLengthF g len pos = parseLengthF f len pos := by
  simp only [parseLengthF]
  by_cases hp : pos < len
  · rw [if_pos hp, if_pos hp, h pos hp]
    by_cases hlb : f pos < 0x80
    · rw [if_pos hlb, if_pos hlb]
    · rw [if_neg hlb, if_neg hlb]
      by_cases hn : len - (pos + 1) < f pos - 0x80
      · rw [if_pos hn, if_pos hn]
      · rw [if_neg hn, if_neg hn,
          readBE_congr f g (f pos - 0x80) (pos + 1) 0
            (fun i h1 h2 => h i (by omega))]
  · rw [if_neg hp, if_neg hp]

theorem parseIntFieldF_congr (f g : Nat → Nat) (len pos : Nat)
    (h : ∀ i, i < len → g i = f i) :
    parseIntFieldF g len pos = parseIntFieldF f len pos := by
  simp only [parseIntFieldF]
  by_cases hp : pos < len
  · rw [if_pos hp, if_pos hp, h pos hp]
    by_cases ht : f pos = 2
    · rw [if_pos ht, if_pos ht, parseLengthF_congr f g len (pos + 1) h]
      rcases hl : parseLengthF f len (pos + 1) with _ | ⟨flen, p2⟩
      · rfl
      · have hle := parseLengthF_le f len (pos + 1) flen p2 hl
        simp only
        by_cases hf0 : flen = 0
        · rw [if_pos hf0, if_pos hf0]
        · rw [if_neg hf0, if_neg hf0]
          by_cases hspan : len - p2 < flen
          · rw [if_pos hspan, if_pos hspan]
          · rw [if_neg hspan, if_neg hspan,
              fieldBytes_congr f g flen p2 (fun i h1 h2 => h i (by omega))]
    · rw [if_neg ht, if_neg ht]
  · rw [if_neg hp, if_neg hp]

theorem parse_der_lax_full_congr (f g : Nat → Nat) (len : Nat)
    (h : ∀ i, i < len → g i = f i) :
    parse_der_lax_full g len = parse_der_lax_full f len := by
  simp only [parse_der_lax_full]
  by_cases hlen : 0 < len
  · rw [if_pos hlen, if_pos hlen, h 0 hlen]
    by_cases ht : f 0 = 0x30
    · rw [if_pos ht, if_pos ht, parseLengthF_congr f g len 1 h]
      rcases hl : parseLengthF f len 1 with _ | ⟨outerLen, p1⟩
      · rfl
      · simp only
        by_cases houter : len - p1 < outerLen
        · rw [if_pos houter, if_pos houter]
        · rw [if_neg houter, if_neg houter,
            parseIntFieldF_congr f g len p1 h]
          rcases hr : parseIntFieldF f len p1 with _ | ⟨r32, p2⟩
          · rfl
          · simp only
            rw [parseIntFieldF_congr f g len p2 h]
    · rw [if_neg ht, if_neg ht]
  · rw [if_neg hlen, if_neg hlen]

/-! ## Frame: bytes past the consumed end of a successful parse are irrelevant -/

theorem parseLengthF_frame (f g : Nat → Nat) (len pos L p' : Nat)
    (hs : parseLengthF f len pos = some (L, p'))
    (h : ∀ i, i < p' → g i = f i) :
    parseLengthF g len pos = some (L, p') := by
  have hle := parseLengthF_le f len pos L p' hs
  simp only [parseLengthF] at hs ⊢
  rw [if_pos (by omega : pos < len)] at hs ⊢
  rw [h pos (by omega)]
  by_cases hlb : f pos < 0x80
  · rw [if_pos hlb] at hs ⊢
    exact hs
  · rw [if_neg hlb] at hs ⊢
    by_cases hn : len - (pos + 1) < f pos - 0x80
    · rw [if_pos hn] at hs
      exact absurd hs (by simp)
    · rw [if_neg hn] at hs ⊢
      have hp' : p' = pos + 1 + (f pos - 0x80) := by
        simpa using congrArg (fun o => (o.map Prod.snd).getD 0) hs.symm
      rw [readBE_congr f g (f pos - 0x80) (pos + 1) 0
        (fun i h1 h2 => h i (by omega))]
      exact hs

theorem parseIntFieldF_frame (f g : Nat → Nat) (len pos : Nat)
    (f32 : List Nat) (p' : Nat)
    (hs : parseIntFieldF f len pos = some (f32, p'))
    (h : ∀ i, i < p' → g i = f i) :
    parseIntFieldF g len pos = some (f32, p') := by
  obtain ⟨flen, p2, hpos, htag, hl, hf0, hspan, hsig, hf32, hp'⟩ :=
    parseIntFieldF_inv f len pos f32 p' hs
  have hle := parseLengthF_le f len (pos + 1) flen p2 hl
  have hgl : parseLengthF g len (pos + 1) = some (flen, p2) :=
    parseLengthF_frame f g len (pos + 1) flen p2 hl
      (fun i hi => h i (by omega))
  have hfb : fieldBytes g p2 flen = fieldBytes f p2 flen :=
    fieldBytes_congr f g flen p2 (fun i h1 h2 => h i (by omega))
  have := parseIntFieldF_build g len pos flen p2
    hpos (by rw [h pos (by omega)]; exact htag) hgl hf0 hspan
    (by rw [hfb]; exact hsig)
  rw [this, hfb, ← hf32, ← hp']

theorem parseIntFieldF_pos_bound (f : Nat → Nat) (len pos : Nat)
    (f32 : List Nat) (p' : Nat)
    (hs : parseIntFieldF f len pos = some (f32, p')) :
    pos + 3 ≤ p' ∧ p' ≤ len := by
  obtain ⟨flen, p2, _, _, hl, hf0, hspan, _, _, hp'⟩ :=
    parseIntFieldF_inv f len pos f32 p' hs
  have hle := parseLengthF_le f len (pos + 1) flen p2 hl
  omega

theorem parse_der_lax_full_frame (f g : Nat → Nat) (len : Nat)
    (out : List Nat) (endPos : Nat)
    (hs : parse_der_lax_full f len = some (out, endPos))
    (h : ∀ i, i < endPos → g i = f i) :
    parse_der_lax_full g len = some (out, endPos) := by
  obtain ⟨outerLen, p1, r32, p2, s32, hlen, htag, hl, houter, hr, hsf, hout⟩ :=
    parse_der_lax_full_inv f len out endPos hs
  have hle := parseLengthF_le f len 1 outerLen p1 hl
  have hb1 := parseIntFieldF_pos_bound f len p1 r32 p2 hr
  have hb2 := parseIntFieldF_pos_bound f len p2 s32 endPos hsf
  have hgl : parseLengthF g len 1 = some (outerLen, p1) :=
    parseLengthF_frame f g len 1 outerLen p1 hl (fun i hi => h i (by omega))
  have hgr : parseIntFieldF g len p1 = some (r32, p2) :=
    parseIntFieldF_frame f g len p1 r32 p2 hr (fun i hi => h i (by omega))
  have hgs : parseIntFieldF g len p2 = some (s32, endPos) :=
    parseIntFieldF_frame f g len p2 s32 endPos hsf (fun i hi => h i hi)
  rw [hout]
  exact parse_der_lax_full_build g len outerLen p1 p2 endPos r32 s32
    hlen (by rw [h 0 (by omega)]; exact htag) hgl houter hgr hgs

theorem parse_der_lax_eq_some (f : Nat → Nat) (len : Nat) (out : List Nat)
    (h : parse_der_lax f len = some out) :
    ∃ endPos, parse_der_lax_full f len = some (out, endPos) := by
  unfold parse_der_lax at h
  rcases hm : parse_der_lax_full f len with _ | ⟨o, e⟩
  · rw [hm] at h; simp at h
  · rw [hm] at h
    simp at h
    exact ⟨e, by rw [h]⟩

/-! ## Failure propagation -/

theorem parseIntFieldF_none_of_bad (f : Nat → Nat) (len pos flen p2 : Nat)
    (hl : parseLengthF f len (pos + 1) = some (flen, p2))
    (hbad : flen = 0 ∨ 33 < (stripPurePadding (fieldBytes f p2 flen)).length) :
    parseIntFieldF f len pos = none := by
  simp only [parseIntFieldF, hl]
  by_cases hp : pos < len
  · rw [if_pos hp]
    by_cases ht : f pos = 2
    · rw [if_pos ht]
      by_cases hf0 : flen = 0
      · rw [if_pos hf0]
      · rw [if_neg hf0]
        have hover : 33 < (stripPurePadding (fieldBytes f p2 flen)).length := by
          rcases hbad with hbad | hbad
          · exact absurd hbad hf0
          · exact hbad
        have hstrip : 32 < (stripZeros (fieldBytes f p2 flen)).length := by
          have := stripPurePadding_length_le (fieldBytes f p2 flen)
          omega
        by_cases hspan : len - p2 < flen
        · rw [if_pos hspan]
        · rw [if_neg hspan, if_pos hstrip]
    · rw [if_neg ht]
  · rw [if_neg hp]

theorem parseIntFieldF_none_of_span (f : Nat → Nat) (len pos flen p2 : Nat)
    (hl : parseLengthF f len (pos + 1) = some (flen, p2))
    (hspan : len < p2 + flen) :
    parseIntFieldF f len pos = none := by
  have hle := parseLengthF_le f len (pos + 1) flen p2 hl
  simp only [parseIntFieldF, hl]
  by_cases hp : pos < len
  · rw [if_pos hp]
    by_cases ht : f pos = 2
    · rw [if_pos ht]
      by_cases hf0 : flen = 0
      · rw [if_pos hf0]
      · rw [if_neg hf0, if_pos (by omega : len - p2 < flen)]
    · rw [if_neg ht]
  · rw [if_neg hp]

theorem parse_der_lax_none_of_r_none (f : Nat → Nat) (len outerLen p1 : Nat)
    (hl : parseLengthF f len 1 = some (outerLen, p1))
    (hr : parseIntFieldF f len p1 = none) :
    parse_der_lax f len = none := by
  simp only [parse_der_lax, parse_der_lax_full, hl, hr]
  by_cases h0 : 0 < len
  · rw [if_pos h0]
    by_cases ht : f 0 = 0x30
    · rw [if_pos ht]
      by_cases houter : len - p1 < outerLen
      · rw [if_pos houter]; rfl
      · rw [if_neg houter]; rfl
    · rw [if_neg ht]; rfl
  · rw [if_neg h0]; rfl

theorem parse_der_lax_none_of_s_none (f : Nat → Nat) (len outerLen p1 p2 : Nat)
    (r32 : List Nat)
    (hl : parseLengthF f len 1 = some (outerLen, p1))
    (hr : parseIntFieldF f len p1 = some (r32, p2))
    (hsn : parseIntFieldF f len p2 = none) :
    parse_der_lax f len = none := by
  simp only [parse_der_lax, parse_der_lax_full, hl, hr, hsn]
  by_cases h0 : 0 < len
  · rw [if_pos h0]
    by_cases ht : f 0 = 0x30
    · rw [if_pos ht]
      by_cases houter : len - p1 < outerLen
      · rw [if_pos houter]; rfl
      · rw [if_neg houter]; rfl
    · rw [if_neg ht]; rfl
  · rw [if_neg h0]; rfl

theorem parse_der_lax_none_of_outer (f : Nat → Nat) (len outerLen p1 : Nat)
    (hl : parseLengthF f len 1 = some (outerLen, p1))
    (houter : len < p1 + outerLen) :
    parse_der_lax f len = none := by
  have hle := parseLengthF_le f len 1 outerLen p1 hl
  simp only [parse_der_lax, parse_der_lax_full, hl]
  by_cases h0 : 0 < len
  · rw [if_pos h0]
    by_cases ht : f 0 = 0x30
    · rw [if_pos ht, if_pos (by omega : len - p1 < outerLen)]; rfl
    · rw [if_neg ht]; rfl
  · rw [if_neg h0]; rfl

/-! ## Lemmas about the canonical re-encoder -/

theorem derBody_ne_nil (sig : List Nat) : derBody sig ≠ [] := by
  unfold derBody
  by_cases h0 : sig = []
  · rw [if_pos h0]; simp
  · rw [if_neg h0]
    by_cases hh : 0x80 ≤ sig.headD 0
    · rw [if_pos hh]; simp
    · rw [if_neg hh]; exact h0

theorem derBody_length_le (sig : List Nat) :
    (derBody sig).length ≤ sig.length + 1 := by
  unfold derBody
  by_cases h0 : sig = []
  · rw [if_pos h0]; simp [h0]
  · rw [if_neg h0]
    by_cases hh : 0x80 ≤ sig.headD 0
    · rw [if_pos hh]; simp
    · rw [if_neg hh]; omega

theorem stripZeros_of_head_ne (x : Nat) (t : List Nat) (hx : x ≠ 0) :
    stripZeros (x :: t) = x :: t := by
  simp [stripZeros, List.dropWhile, hx]

theorem stripZeros_derBody (a : List Nat) (ha : stripZeros a = a) :
    stripZeros (derBody a) = a := by
  unfold derBody
  by_cases h0 : a = []
  · subst h0
    simp [stripZeros]
  · by_cases hh : 0x80 ≤ a.headD 0
    · rw [if_neg h0, if_pos hh, stripZeros_cons_zero, ha]
    · rw [if_neg h0, if_neg hh, ha]

theorem stripZeros_pad32 (l : List Nat) :
    stripZeros (pad32 l) = stripZeros l := by
  unfold pad32
  exact stripZeros_replicate _ l

/-! ## Claim theorems -/

/-- Claim C1: for every input byte sequence on which the lax DER parse
succeeds, the returned normalized signature is exactly 64 bytes — a
32-byte big-endian r field followed by a 32-byte big-endian s field. -/
theorem parse_success_yields_64_bytes (input out : List Nat)
    (h : ecdsa_signature_parse_der_lax input = some out) :
    out.length = 64 ∧
      ∃ r32 s32 : List Nat,
        out = r32 ++ s32 ∧ r32.length = 32 ∧ s32.length = 32 := by
  unfold ecdsa_signature_parse_der_lax at h
  obtain ⟨endPos, hfull⟩ := parse_der_lax_eq_some _ _ _ h
  obtain ⟨outerLen, p1, r32, p2, s32, _, _, _, _, hr, hsf, hout⟩ :=
    parse_der_lax_full_inv _ _ _ _ hfull
  obtain ⟨flenr, p2r, _, _, _, _, _, hsigr, hr32, _⟩ :=
    parseIntFieldF_inv _ _ _ _ _ hr
  obtain ⟨flens, p2s, _, _, _, _, _, hsigs, hs32, _⟩ :=
    parseIntFieldF_inv _ _ _ _ _ hsf
  have hlr : r32.length = 32 := by rw [hr32]; exact pad32_length _ hsigr
  have hls : s32.length = 32 := by rw [hs32]; exact pad32_length _ hsigs
  subst hout
  exact ⟨by simp [List.length_append, hlr, hls], r32, s32, rfl, hlr, hls⟩

theorem parse_success_yields_64_bytes_witness :
    (pad32 [1] ++ pad32 [1]).length = 64 ∧
      ∃ r32 s32 : List Nat,
        pad32 [1] ++ pad32 [1] = r32 ++ s32 ∧
          r32.length = 32 ∧ s32.length = 32 :=
  parse_success_yields_64_bytes [0x30, 6, 2, 1, 1, 2, 1, 1]
    (pad32 [1] ++ pad32 [1]) (by decide)

/-- Claim C2: for 32-byte values r and s whose minimal canonical encoding
is `30 44 02 20 r 02 20 s`, re-encoding r with one extra leading zero byte
as `02 21 00 r` (outer length adjusted to `0x45`) still parses, and the
first 32 bytes of the output are r unchanged: the padding byte is
stripped, not reflected in the output. -/
theorem parse_padded_r_preserves_value (r s : List Nat)
    (hr : r.length = 32) (hs : s.length = 32)
    (_hrc : 0 < r.headD 0 ∧ r.headD 0 < 0x80)
    (_hsc : 0 < s.headD 0 ∧ s.headD 0 < 0x80) :
    ecdsa_signature_parse_der_lax
        (0x30 :: 0x45 :: 0x02 :: 0x21 :: 0x00 :: (r ++ 0x02 :: 0x20 :: s))
      = some (r ++ s) ∧
      (r ++ s).take 32 = r := by
  have hsne : s ≠ [] := by
    intro hnil
    rw [hnil] at hs
    simp at hs
  have henc := parse_der_lax_full_encoded 0x45 (0 :: r) s []
    (by norm_num)
    (by simp [hr, hs])
    (by simp [hr])
    (by rw [hs]; norm_num)
    (by simp)
    hsne
    (by rw [stripZeros_cons_zero]
        exact le_trans (stripZeros_length_le r) (le_of_eq hr))
    (le_trans (stripZeros_length_le s) (le_of_eq hs))
  have h1 : (0x30 : Nat) :: 0x45 :: 2 :: (0 :: r).length ::
      ((0 :: r) ++ 2 :: s.length :: (s ++ []))
      = 0x30 :: 0x45 :: 0x02 :: 0x21 :: 0x00 :: (r ++ 0x02 :: 0x20 :: s) := by
    simp [hr, hs]
  rw [h1] at henc
  constructor
  · unfold ecdsa_signature_parse_der_lax parse_der_lax
    rw [henc]
    simp only [Option.map_some']
    rw [stripZeros_cons_zero, pad32_stripZeros r hr, pad32_stripZeros s hs]
  · exact List.take_left' hr

theorem parse_padded_r_preserves_value_witness :
    ecdsa_signature_parse_der_lax
        (0x30 :: 0x45 :: 0x02 :: 0x21 :: 0x00 ::
          ((1 :: List.replicate 31 7) ++ 0x02 :: 0x20 :: (2 :: List.replicate 31 9)))
      = some ((1 :: List.replicate 31 7) ++ (2 :: List.replicate 31 9)) ∧
      ((1 :: List.replicate 31 7) ++ (2 :: List.replicate 31 9)).take 32
        = 1 :: List.replicate 31 7 :=
  parse_padded_r_preserves_value (1 :: List.replicate 31 7)
    (2 :: List.replicate 31 9) (by decide) (by decide) (by decide) (by decide)

/-- Claim C3: when a parse succeeds with output `out` consuming bytes up to
position `endPos`, every byte store agreeing on positions below `endPos` —
in particular one differing only in declared-but-unconsumed trailing bytes
within the stated outer length — parses successfully with the same 64-byte
output: the unconsumed tail has no effect. -/
theorem parse_ignores_trailing_bytes (f g : Nat → Nat) (inputlen : Nat)
    (out : List Nat) (endPos : Nat)
    (hs : parse_der_lax_full f inputlen = some (out, endPos))
    (hagree : ∀ i, i < endPos → g i = f i) :
    parse_der_lax f inputlen = some out ∧
      parse_der_lax g inputlen = some out := by
  have hg := parse_der_lax_full_frame f g inputlen out endPos hs hagree
  constructor
  · unfold parse_der_lax
    rw [hs]
    rfl
  · unfold parse_der_lax
    rw [hg]
    rfl

theorem parse_ignores_trailing_bytes_witness :
    parse_der_lax
        (fun i => ([0x30, 8, 2, 1, 1, 2, 1, 1, 0, 0] : List Nat).getD i 0) 10
      = some (pad32 [1] ++ pad32 [1]) ∧
    parse_der_lax
        (fun i => ([0x30, 8, 2, 1, 1, 2, 1, 1, 0xAA, 0xBB] : List Nat).getD i 0) 10
      = some (pad32 [1] ++ pad32 [1]) :=
  parse_ignores_trailing_bytes
    (fun i => ([0x30, 8, 2, 1, 1, 2, 1, 1, 0, 0] : List Nat).getD i 0)
    (fun i => ([0x30, 8, 2, 1, 1, 2, 1, 1, 0xAA, 0xBB] : List Nat).getD i 0)
    10 (pad32 [1] ++ pad32 [1]) 8 (by decide) (by decide)

/-- Claim C4: for either INTEGER field (r in the first conjunct, s in the
second), the parse fails when the field's declared content length is zero,
or when the significant byte count after stripping pure leading-zero
padding exceeds 33. -/
theorem parse_rejects_zero_length_or_oversized_integer :
    (∀ (f : Nat → Nat) (len L p1 flen p2 : Nat),
        parseLengthF f len 1 = some (L, p1) →
        parseLengthF f len (p1 + 1) = some (flen, p2) →
        (flen = 0 ∨ 33 < (stripPurePadding (fieldBytes f p2 flen)).length) →
        parse_der_lax f len = none)
  ∧ (∀ (f : Nat → Nat) (len L p1 p2 flen p3 : Nat) (r32 : List Nat),
        parseLengthF f len 1 = some (L, p1) →
        parseIntFieldF f len p1 = some (r32, p2) →
        parseLengthF f len (p2 + 1) = some (flen, p3) →
        (flen = 0 ∨ 33 < (stripPurePadding (fieldBytes f p3 flen)).length) →
        parse_der_lax f len = none) := by
  constructor
  · intro f len L p1 flen p2 hl hrl hbad
    exact parse_der_lax_none_of_r_none f len L p1 hl
      (parseIntFieldF_none_of_bad f len p1 flen p2 hrl hbad)
  · intro f len L p1 p2 flen p3 r32 hl hr hsl hbad
    exact parse_der_lax_none_of_s_none f len L p1 p2 r32 hl hr
      (parseIntFieldF_none_of_bad f len p2 flen p3 hsl hbad)

theorem parse_rejects_zero_length_or_oversized_integer_witness :
    parse_der_lax (fun i => ([0x30, 4, 2, 0, 2, 1, 1] : List Nat).getD i 0) 7
      = none
  ∧ parse_der_lax
      (fun i => (([0x30, 0x27, 2, 1, 1, 2, 0x22] ++ List.replicate 34 1 :
        List Nat)).getD i 0) 41 = none :=
  ⟨parse_rejects_zero_length_or_oversized_integer.1
      (fun i => ([0x30, 4, 2, 0, 2, 1, 1] : List Nat).getD i 0) 7 4 2 0 4
      (by decide) (by decide) (by decide),
    parse_rejects_zero_length_or_oversized_integer.2
      (fun i => (([0x30, 0x27, 2, 1, 1, 2, 0x22] ++ List.replicate 34 1 :
        List Nat)).getD i 0) 41 0x27 2 5 34 7 (pad32 [1])
      (by decide) (by decide) (by decide) (by decide)⟩

/-- Claim C5: an input in which a declared length extends past the true end
of the buffer never parses successfully — the outer SEQUENCE length (first
conjunct), the r INTEGER length (second) and the s INTEGER length (third)
each cause failure when the declared span exceeds the declared buffer
length. -/
theorem parse_fails_on_truncated_declared_lengths :
    (∀ (f : Nat → Nat) (len L p1 : Nat),
        parseLengthF f len 1 = some (L, p1) → len < p1 + L →
        parse_der_lax f len = none)
  ∧ (∀ (f : Nat → Nat) (len L p1 rl p2 : Nat),
        parseLengthF f len 1 = some (L, p1) →
        parseLengthF f len (p1 + 1) = some (rl, p2) → len < p2 + rl →
        parse_der_lax f len = none)
  ∧ (∀ (f : Nat → Nat) (len L p1 p2 sl p3 : Nat) (r32 : List Nat),
        parseLengthF f len 1 = some (L, p1) →
        parseIntFieldF f len p1 = some (r32, p2) →
        parseLengthF f len (p2 + 1) = some (sl, p3) → len < p3 + sl →
        parse_der_lax f len = none) := by
  refine ⟨?_, ?_, ?_⟩
  · intro f len L p1 hl hover
    exact parse_der_lax_none_of_outer f len L p1 hl hover
  · intro f len L p1 rl p2 hl hrl hspan
    exact parse_der_lax_none_of_r_none f len L p1 hl
      (parseIntFieldF_none_of_span f len p1 rl p2 hrl hspan)
  · intro f len L p1 p2 sl p3 r32 hl hr hsl hspan
    exact parse_der_lax_none_of_s_none f len L p1 p2 r32 hl hr
      (parseIntFieldF_none_of_span f len p2 sl p3 hsl hspan)

theorem parse_fails_on_truncated_declared_lengths_witness :
    parse_der_lax (fun i => ([0x30, 7, 2, 1, 1, 2, 1, 1] : List Nat).getD i 0) 8
      = none
  ∧ parse_der_lax (fun i => ([0x30, 6, 2, 9, 1] : List Nat).getD i 0) 5 = none
  ∧ parse_der_lax (fun i => ([0x30, 6, 2, 1, 1, 2, 5, 1] : List Nat).getD i 0) 8
      = none :=
  ⟨parse_fails_on_truncated_declared_lengths.1
      (fun i => ([0x30, 7, 2, 1, 1, 2, 1, 1] : List Nat).getD i 0) 8 7 2
      (by decide) (by decide),
    parse_fails_on_truncated_declared_lengths.2.1
      (fun i => ([0x30, 6, 2, 9, 1] : List Nat).getD i 0) 5 6 2 9 4
      (by decide) (by decide) (by decide),
    parse_fails_on_truncated_declared_lengths.2.2
      (fun i => ([0x30, 6, 2, 1, 1, 2, 5, 1] : List Nat).getD i 0) 8 6 2 5 5 7
      (pad32 [1]) (by decide) (by decide) (by decide) (by decide)⟩

/-- Claim C6: every input whose first byte is not the SEQUENCE tag `0x30`
fails, regardless of the rest of the input. -/
theorem parse_rejects_wrong_outer_tag (input : List Nat) (b : Nat)
    (hb : input.head? = some b) (hne : b ≠ 0x30) :
    ecdsa_signature_parse_der_lax input = none := by
  cases input with
  | nil => simp at hb
  | cons x t =>
    simp only [List.head?_cons, Option.some.injEq] at hb
    subst hb
    simp only [ecdsa_signature_parse_der_lax, parse_der_lax, parse_der_lax_full]
    rw [if_pos (show 0 < (x :: t).length by simp),
      if_neg (show ¬ ((x :: t).getD 0 0 = 0x30) by simpa using hne)]
    rfl

theorem parse_rejects_wrong_outer_tag_witness :
    ecdsa_signature_parse_der_lax [0x31, 6, 2, 1, 1, 2, 1, 1] = none :=
  parse_rejects_wrong_outer_tag [0x31, 6, 2, 1, 1, 2, 1, 1] 0x31
    (by decide) (by decide)

theorem parse_encodeSigDER (a b : List Nat)
    (ha : stripZeros a = a) (hb : stripZeros b = b)
    (hla : a.length ≤ 32) (hlb : b.length ≤ 32) :
    ecdsa_signature_parse_der_lax (encodeSigDER (pad32 a ++ pad32 b))
      = some (pad32 a ++ pad32 b) := by
  have h32a : (pad32 a).length = 32 := pad32_length a hla
  have hta : (pad32 a ++ pad32 b).take 32 = pad32 a := List.take_left' h32a
  have htb : (pad32 a ++ pad32 b).drop 32 = pad32 b := List.drop_left' h32a
  have hsa : stripZeros ((pad32 a ++ pad32 b).take 32) = a := by
    rw [hta, stripZeros_pad32, ha]
  have hsb : stripZeros ((pad32 a ++ pad32 b).drop 32) = b := by
    rw [htb, stripZeros_pad32, hb]
  have hEr : encodeIntDER ((pad32 a ++ pad32 b).take 32)
      = 2 :: (derBody a).length :: derBody a := by
    unfold encodeIntDER
    rw [hsa]
  have hEs : encodeIntDER ((pad32 a ++ pad32 b).drop 32)
      = 2 :: (derBody b).length :: derBody b := by
    unfold encodeIntDER
    rw [hsb]
  have hlda : (derBody a).length ≤ 33 :=
    le_trans (derBody_length_le a) (by omega)
  have hldb : (derBody b).length ≤ 33 :=
    le_trans (derBody_length_le b) (by omega)
  have hmaster := parse_der_lax_full_encoded
    ((2 :: (derBody a).length :: derBody a).length
      + (2 :: (derBody b).length :: derBody b).length)
    (derBody a) (derBody b) []
    (by simp only [List.length_cons]; omega)
    (by simp only [List.length_cons, List.length_nil]; omega)
    (by omega) (by omega)
    (derBody_ne_nil a) (derBody_ne_nil b)
    (by rw [stripZeros_derBody a ha]; exact hla)
    (by rw [stripZeros_derBody b hb]; exact hlb)
  have hLeq : encodeSigDER (pad32 a ++ pad32 b)
      = 0x30 :: ((2 :: (derBody a).length :: derBody a).length
          + (2 :: (derBody b).length :: derBody b).length)
        :: 2 :: (derBody a).length ::
          (derBody a ++ 2 :: (derBody b).length :: (derBody b ++ [])) := by
    unfold encodeSigDER
    rw [hEr, hEs]
    simp [List.cons_append, List.append_nil]
  unfold ecdsa_signature_parse_der_lax parse_der_lax
  rw [hLeq, hmaster]
  simp only [Option.map_some']
  rw [stripZeros_derBody a ha, stripZeros_derBody b hb]

/-- Claim C7: round-trip — whenever the parse succeeds with normalized
output `out` (the concatenated r and s fields), re-encoding `out` into
minimal canonical DER and parsing the result succeeds and yields the same
64-byte output. -/
theorem parse_reencode_roundtrip (f : Nat → Nat) (inputlen : Nat)
    (out : List Nat) (h : parse_der_lax f inputlen = some out) :
    ecdsa_signature_parse_der_lax (encodeSigDER out) = some out := by
  obtain ⟨endPos, hfull⟩ := parse_der_lax_eq_some _ _ _ h
  obtain ⟨outerLen, p1, r32, p2, s32, _, _, _, _, hr, hsf, hout⟩ :=
    parse_der_lax_full_inv _ _ _ _ hfull
  obtain ⟨flenr, p2r, _, _, _, _, _, hsigr, hr32, _⟩ :=
    parseIntFieldF_inv _ _ _ _ _ hr
  obtain ⟨flens, p2s, _, _, _, _, _, hsigs, hs32, _⟩ :=
    parseIntFieldF_inv _ _ _ _ _ hsf
  rw [hout, hr32, hs32]
  exact parse_encodeSigDER (stripZeros (fieldBytes f p2r flenr))
    (stripZeros (fieldBytes f p2s flens))
    (stripZeros_idem _) (stripZeros_idem _) hsigr hsigs

theorem parse_reencode_roundtrip_witness :
    ecdsa_signature_parse_der_lax (encodeSigDER (pad32 [1] ++ pad32 [1]))
      = some (pad32 [1] ++ pad32 [1]) :=
  parse_reencode_roundtrip
    (fun i => ([0x30, 6, 2, 1, 1, 2, 1, 1] : List Nat).getD i 0) 8
    (pad32 [1] ++ pad32 [1]) (by decide)

/-- Claim C8: the parser reads only bytes at offsets strictly below the
caller-declared input length — two byte stores that agree below the
declared length produce identical results, on every execution path,
success or failure. -/
theorem parse_reads_only_declared_input (f g : Nat → Nat) (inputlen : Nat)
    (h : ∀ i, i < inputlen → f i = g i) :
    parse_der_lax_full f inputlen = parse_der_lax_full g inputlen ∧
      parse_der_lax f inputlen = parse_der_lax g inputlen := by
  have hc := parse_der_lax_full_congr g f inputlen h
  exact ⟨hc, by unfold parse_der_lax; rw [hc]⟩

theorem parse_reads_only_declared_input_witness :
    parse_der_lax_full
        (fun i => ([0x30, 6, 2, 1, 1, 2, 1, 1, 50] : List Nat).getD i 0) 8
      = parse_der_lax_full
        (fun i => ([0x30, 6, 2, 1, 1, 2, 1, 1, 99] : List Nat).getD i 0) 8 ∧
    parse_der_lax
        (fun i => ([0x30, 6, 2, 1, 1, 2, 1, 1, 50] : List Nat).getD i 0) 8
      = parse_der_lax
        (fun i => ([0x30, 6, 2, 1, 1, 2, 1, 1, 99] : List Nat).getD i 0) 8 :=
  parse_reads_only_declared_input
    (fun i => ([0x30, 6, 2, 1, 1, 2, 1, 1, 50] : List Nat).getD i 0)
    (fun i => ([0x30, 6, 2, 1, 1, 2, 1, 1, 99] : List Nat).getD i 0)
    8 (by decide)

/-- Claim C10: the empty input (declared length 0) fails, and does so
without reading any byte of the buffer — failure holds uniformly for every
byte store under declared length 0. -/
theorem parse_empty_input_fails :
    (∀ f : Nat → Nat, parse_der_lax f 0 = none) ∧
      ecdsa_signature_parse_der_lax [] = none := by
  exact ⟨fun f => rfl, rfl⟩

end LaxDer
